import Mathlib

/-!
# Verification of the parakeet-v3-diarized chunk/merge/render pipeline

Shallow embedding of the in-repo algorithms of the parakeet speech-to-text
service:

* `src/audio.py` — splitting audio into fixed-duration chunks
  (`split_audio_into_chunks`), including its exception-swallowing fallback;
* `src/api.py` — the request handler `transcribe_audio`: per-chunk offset
  reconciliation, the speaker-label text prefixing loop, the temporary-file
  lifecycle and the HTTP status control flow;
* `src/diarization/__init__.py` — `Diarizer.merge_with_transcription`,
  the maximum-overlap speaker assignment;
* `src/transcription.py` — `_format_timestamp` and `format_srt`.

Times are modelled as rationals (`ℚ`): the Python code holds them in floats
but only ever compares, adds and subtracts them, which `ℚ` models exactly on
the inputs the theorems quantify over.  Python strings are Lean `String`s;
the handful of Python string primitives the code uses (`str.strip`,
`str.replace`, `str.split`, `int(...)`, decimal rendering of integers) are
given executable models below.
-/

namespace Parakeet

/-! ## Python string primitive models -/

/-- Model of Python's `str(n)` for a natural number: decimal digits, most
significant first.  Fuel-based so that it reduces in the kernel; `fuel = n + 1`
always suffices. -/
def natDigitsAux : ℕ → ℕ → List Char
  | 0, _ => []
  | fuel + 1, n =>
    if n < 10 then [Char.ofNat (48 + n)]
    else natDigitsAux fuel (n / 10) ++ [Char.ofNat (48 + n % 10)]

/-- Model of Python's `str(n)` (decimal rendering of a nonnegative integer). -/
def natStr (n : ℕ) : String := ⟨natDigitsAux (n + 1) n⟩

/-- Model of Python's `str(z)` for an integer. -/
def intStr (z : ℤ) : String :=
  if z < 0 then "-" ++ natStr z.natAbs else natStr z.toNat

/-- The whitespace characters Python's `str.strip()` removes (ASCII part). -/
def pyIsSpace (c : Char) : Bool :=
  c = ' ' || c = '\t' || c = '\n' || c = '\r' || c = '\x0b' || c = '\x0c'

/-- Model of Python's `str.strip()` on the underlying character list. -/
def pyStripList (l : List Char) : List Char :=
  ((l.dropWhile pyIsSpace).reverse.dropWhile pyIsSpace).reverse

/-- Model of Python's `str.strip()`. -/
def pyStrip (s : String) : String := ⟨pyStripList s.toList⟩

/-- One left-to-right pass of Python's `str.replace(pat, rep)` (non-empty
`pat`): at each position, if `pat` matches, emit `rep` and resume after the
match, otherwise copy one character.  Fuel-based (fuel = length of the text)
so that it reduces in the kernel. -/
def pyReplaceAux (pat rep : List Char) : ℕ → List Char → List Char
  | _, [] => []
  | 0, l => l
  | fuel + 1, c :: rest =>
    if pat.isPrefixOf (c :: rest) then
      rep ++ pyReplaceAux pat rep fuel (rest.drop (pat.length - 1))
    else
      c :: pyReplaceAux pat rep fuel rest

/-- Model of Python's `str.replace(pat, rep)` for non-empty `pat`. -/
def pyReplace (s pat rep : String) : String :=
  ⟨pyReplaceAux pat.toList rep.toList s.toList.length s.toList⟩

/-! ## Data model (`src/models.py`, `src/diarization/__init__.py`)

`WhisperSegment` keeps the fields the verified code paths read or write
(`id`, `start`, `end`, `text`, `speaker`); the remaining metadata fields of
`src/models.py` (`seek`, `tokens`, probabilities) are carried through
unchanged by every operation here and are omitted.  Python's `end` is a Lean
keyword, so the field is called `stop`. -/

/-- A transcript segment (`WhisperSegment` in `src/models.py`). -/
structure WhisperSegment where
  id : ℤ
  start : ℚ
  stop : ℚ
  text : String
  speaker : Option String := none
  deriving Repr, DecidableEq

/-- A diarization turn (`SpeakerSegment` in `src/diarization/__init__.py`). -/
structure SpeakerSegment where
  start : ℚ
  stop : ℚ
  speaker : String
  deriving Repr, DecidableEq

/-- Result of diarization (`DiarizationResult` in
`src/diarization/__init__.py`). -/
structure DiarizationResult where
  segments : List SpeakerSegment
  num_speakers : ℕ
  deriving Repr, DecidableEq

/-! ## Audio chunking (`src/audio.py`, `split_audio_into_chunks`)

The function is embedded over the audio duration `D = frames / rate` (a
rational) and the configured chunk duration `C` (an `int` in
`src/config.py`).  Each loop iteration shells out to the external tool with
`-ss (i*C) -t C`; per the external collaborator's contract (spec §4.1) the
materialized window is `[i*C, min((i+1)*C, D))`, so a produced chunk is
recorded as its start time and effective length.  The oracle `ffmpegOk i`
says whether the external tool succeeds on window `i`. -/

/-- A value returned by `split_audio_into_chunks`: either the original input
file, unmodified (the `return [audio_path]` paths), or a materialized window
chunk written to a fresh path. -/
inductive AudioChunk where
  | original (duration : ℚ)
  | window (start length : ℚ)
  deriving Repr, DecidableEq

/-- The chunk-producing loop of `split_audio_into_chunks` (`src/audio.py`
lines 46-72), over the list of window indices: on the first window where the
external tool fails, raise (`raise Exception(...)`). -/
def splitGo (D : ℚ) (C : ℕ) (ffmpegOk : ℕ → Bool) : List ℕ → Except String (List AudioChunk)
  | [] => .ok []
  | i :: rest =>
    if ffmpegOk i then
      (splitGo D C ffmpegOk rest).map (AudioChunk.window (i * C) (min (C : ℚ) (D - i * C)) :: ·)
    else
      .error "Failed to split audio"

/-- The `try:` body of `split_audio_into_chunks` (`src/audio.py` lines
23-72): return the unsplit input when `duration <= chunk_duration`, else
produce `ceil(duration / chunk_duration)` windows, raising on external-tool
failure. -/
def splitBody (D : ℚ) (C : ℕ) (ffmpegOk : ℕ → Bool) : Except String (List AudioChunk) :=
  if D ≤ C then .ok [.original D]
  else splitGo D C ffmpegOk (List.range ⌈D / C⌉₊)

/-- `split_audio_into_chunks` (`src/audio.py` lines 12-77) as seen by its
caller: the `except Exception` handler at lines 74-77 catches every error
from the body and returns the original file instead, so the function never
propagates an error. -/
def split_audio_into_chunks (D : ℚ) (C : ℕ) (ffmpegOk : ℕ → Bool) :
    Except String (List AudioChunk) :=
  match splitBody D C ffmpegOk with
  | .ok chunks => .ok chunks
  | .error _ => .ok [.original D]

/-! ### Chunk-count arithmetic -/

lemma ceil_bounds (D : ℚ) (C : ℕ) (hC : 0 < C) (hD : (C : ℚ) < D) :
    2 ≤ ⌈D / C⌉₊ ∧ D ≤ (⌈D / C⌉₊ : ℚ) * C ∧ ((⌈D / C⌉₊ : ℚ) - 1) * C < D := by
  have hCpos : (0 : ℚ) < C := by exact_mod_cast hC
  have h1 : (1 : ℚ) < D / C := (lt_div_iff₀ hCpos).mpr (by simpa using hD)
  have h2 : 2 ≤ ⌈D / C⌉₊ := by
    have := (Nat.lt_ceil (n := 1)).mpr (by exact_mod_cast h1)
    omega
  refine ⟨h2, ?_, ?_⟩
  · have := Nat.le_ceil (D / C)
    calc D = D / C * C := by field_simp
    _ ≤ (⌈D / C⌉₊ : ℚ) * C := by
        exact mul_le_mul_of_nonneg_right this (le_of_lt hCpos)
  · have hlt : ((⌈D / C⌉₊ - 1 : ℕ) : ℚ) < D / C := by
      exact_mod_cast (Nat.lt_ceil (n := ⌈D / C⌉₊ - 1)).mp (by omega)
    have hcast : ((⌈D / C⌉₊ - 1 : ℕ) : ℚ) = (⌈D / C⌉₊ : ℚ) - 1 := by
      have : 1 ≤ ⌈D / C⌉₊ := by omega
      push_cast [Nat.cast_sub this]
      ring
    rw [← hcast]
    calc ((⌈D / C⌉₊ - 1 : ℕ) : ℚ) * C < D / C * C := by
          exact mul_lt_mul_of_pos_right hlt hCpos
    _ = D := by field_simp

lemma splitGo_all_ok (D : ℚ) (C : ℕ) (ffmpegOk : ℕ → Bool)
    (l : List ℕ) (h : ∀ i ∈ l, ffmpegOk i = true) :
    splitGo D C ffmpegOk l =
      .ok (l.map fun (i : ℕ) =>
        AudioChunk.window ((i : ℚ) * C) (min (C : ℚ) (D - (i : ℚ) * C))) := by
  induction l with
  | nil => rfl
  | cons a t ih =>
    have ha : ffmpegOk a = true := h a (List.mem_cons_self a t)
    simp only [splitGo, ha, if_pos trivial, ih (fun i hi => h i (List.mem_cons_of_mem a hi)),
      Except.map, List.map_cons]

/-- **C4.** For every total audio duration `D` and positive chunk duration
`C` (the external tool succeeding on every window): if `D ≤ C`,
`split_audio_into_chunks` returns exactly one chunk, the original audio
unmodified; if `D > C`, it returns `⌈D / C⌉₊` chunks, the `k`-th starting at
time `k * C`, every chunk except possibly the last having length exactly
`C`, and the last having length `D - (n - 1) * C`. -/
theorem split_chunk_arithmetic (D : ℚ) (C : ℕ) (hC : 0 < C)
    (ffmpegOk : ℕ → Bool) (hok : ∀ i, ffmpegOk i = true) :
    (D ≤ (C : ℚ) → split_audio_into_chunks D C ffmpegOk = .ok [.original D]) ∧
    ((C : ℚ) < D →
      ∃ ws, split_audio_into_chunks D C ffmpegOk = .ok ws ∧
        ws.length = ⌈D / C⌉₊ ∧ 2 ≤ ws.length ∧
        (∀ k, k < ws.length →
          ws[k]? = some (.window (k * C) (min (C : ℚ) (D - k * C)))) ∧
        (∀ k, k + 1 < ws.length → ws[k]? = some (.window (k * C) C)) ∧
        ws[ws.length - 1]? =
          some (.window (((⌈D / C⌉₊ : ℚ) - 1) * C)
            (D - ((⌈D / C⌉₊ : ℚ) - 1) * C))) := by
  constructor
  · intro hle
    simp [split_audio_into_chunks, splitBody, if_pos hle]
  · intro hlt
    obtain ⟨h2, hub, hlb⟩ := ceil_bounds D C hC hlt
    set n := ⌈D / C⌉₊ with hn
    refine ⟨(List.range n).map fun (i : ℕ) =>
      AudioChunk.window ((i : ℚ) * C) (min (C : ℚ) (D - (i : ℚ) * C)), ?_, ?_, ?_, ?_, ?_, ?_⟩
    · simp only [split_audio_into_chunks, splitBody, if_neg (not_le.mpr hlt)]
      rw [splitGo_all_ok D C ffmpegOk _ (fun i _ => hok i)]
    · simp
    · simpa using h2
    · intro k hk
      simp only [List.length_map, List.length_range] at hk
      simp [List.getElem?_map, List.getElem?_range hk]
    · intro k hk
      simp only [List.length_map, List.length_range] at hk
      have hk' : k < n := by omega
      have hmin : min (C : ℚ) (D - k * C) = C := by
        have hkn : (k : ℚ) + 1 ≤ (n : ℚ) - 1 := by
          have : k + 2 ≤ n := by omega
          have := (Nat.cast_le (α := ℚ)).mpr this
          push_cast at this ⊢
          linarith
        have : (k : ℚ) * C + C ≤ D := by
          have h1 : ((k : ℚ) + 1) * C ≤ ((n : ℚ) - 1) * C := by
            apply mul_le_mul_of_nonneg_right hkn
            positivity
          nlinarith
        have : (C : ℚ) ≤ D - k * C := by linarith
        exact min_eq_left this
      simp [List.getElem?_map, List.getElem?_range hk', hmin]
    · have hlen : ((List.range n).map fun (i : ℕ) =>
          AudioChunk.window ((i : ℚ) * C) (min (C : ℚ) (D - (i : ℚ) * C))).length = n := by simp
      have hn1 : n - 1 < n := by omega
      have hcast : ((n - 1 : ℕ) : ℚ) = (n : ℚ) - 1 := by
        have : 1 ≤ n := by omega
        push_cast [Nat.cast_sub this]
        ring
      have hmin : min (C : ℚ) (D - ((n - 1 : ℕ) : ℚ) * C) = D - ((n - 1 : ℕ) : ℚ) * C := by
        apply min_eq_right
        rw [hcast]
        have hx : (C : ℚ) + ((n : ℚ) - 1) * C = (n : ℚ) * C := by ring
        linarith [hub]
      rw [hlen]
      have hval : (((List.range n).map fun (i : ℕ) =>
          AudioChunk.window ((i : ℚ) * C) (min (C : ℚ) (D - (i : ℚ) * C)))[n - 1]?) =
          some (AudioChunk.window (((n - 1 : ℕ) : ℚ) * C)
            (min (C : ℚ) (D - ((n - 1 : ℕ) : ℚ) * C))) := by
        simp [List.getElem?_map, List.getElem?_range hn1]
      rw [hval, hmin, hcast]

/-- Witness for `split_chunk_arithmetic` at `D = 700`, `C = 300` with the
external tool succeeding everywhere. -/
theorem split_chunk_arithmetic_witness :
    ((700 : ℚ) ≤ ((300 : ℕ) : ℚ) →
      split_audio_into_chunks 700 300 (fun _ => true) = .ok [.original 700]) ∧
    (((300 : ℕ) : ℚ) < 700 →
      ∃ ws, split_audio_into_chunks 700 300 (fun _ => true) = .ok ws ∧
        ws.length = ⌈(700 : ℚ) / (300 : ℕ)⌉₊ ∧ 2 ≤ ws.length ∧
        (∀ k, k < ws.length →
          ws[k]? = some (.window (k * (300 : ℕ)) (min ((300 : ℕ) : ℚ) (700 - k * (300 : ℕ))))) ∧
        (∀ k, k + 1 < ws.length → ws[k]? = some (.window (k * (300 : ℕ)) ((300 : ℕ) : ℚ))) ∧
        ws[ws.length - 1]? =
          some (.window (((⌈(700 : ℚ) / (300 : ℕ)⌉₊ : ℚ) - 1) * (300 : ℕ))
            (700 - ((⌈(700 : ℚ) / (300 : ℕ)⌉₊ : ℚ) - 1) * (300 : ℕ)))) :=
  split_chunk_arithmetic 700 300 (by norm_num) (fun _ => true) (fun _ => rfl)

/-- **C2** (the claim the code violates): `split_audio_into_chunks` never
propagates an error to its caller — the `except` handler returns the
original unsplit file instead.  In particular, for a 700-second file with
300-second chunks and the external tool failing on every window, the caller
receives `ok [original]` rather than an error. -/
theorem split_never_propagates_error :
    (∀ (D : ℚ) (C : ℕ) (ffmpegOk : ℕ → Bool), ∃ chunks,
      split_audio_into_chunks D C ffmpegOk = .ok chunks) ∧
    split_audio_into_chunks 700 300 (fun _ => false) = .ok [.original 700] := by
  constructor
  · intro D C ffmpegOk
    unfold split_audio_into_chunks
    cases splitBody D C ffmpegOk with
    | ok chunks => exact ⟨chunks, rfl⟩
    | error e => exact ⟨[.original D], rfl⟩
  · have hceil : ⌈(700 : ℚ) / (300 : ℚ)⌉₊ = 3 := by
      norm_num [Nat.ceil_eq_iff]
    simp only [split_audio_into_chunks, splitBody, Nat.cast_ofNat, hceil]
    norm_num [List.range_succ, splitGo]

/-! ## Speaker alignment (`src/diarization/__init__.py`,
`Diarizer.merge_with_transcription`, lines 116-161)

For each transcript segment the code collects `(speaker, duration)` pairs
for every diarization turn with strictly positive overlap, sorts them by
duration descending with Python's `list.sort(..., reverse=True)` — a stable
sort, modelled exactly by `List.mergeSort` with `le a b := b.2 ≤ a.2` (a
stable sort's output is uniquely determined by the key order and input
order) — and assigns the first pair's speaker, or `"unknown"` when no turn
overlaps. -/

/-- The `overlapping` list built at `src/diarization/__init__.py` lines
140-149: `(speaker, duration)` for every turn whose overlap with
`[start, stop)` is strictly positive, in turn-list order. -/
def overlapList (diar : List SpeakerSegment) (start stop : ℚ) : List (String × ℚ) :=
  diar.filterMap fun spk =>
    let ovStart := max start spk.start
    let ovEnd := min stop spk.stop
    if ovStart < ovEnd then some (spk.speaker, ovEnd - ovStart) else none

/-- The comparison Python's `overlapping.sort(key=lambda x: x[1],
reverse=True)` sorts by: duration descending, stable. -/
def byDurationDesc (a b : String × ℚ) : Bool := decide (b.2 ≤ a.2)

/-- The speaker assigned to one transcript segment
(`src/diarization/__init__.py` lines 139-159): dominant speaker by overlap,
or `"unknown"` when no turn overlaps. -/
def dominantSpeaker (diar : List SpeakerSegment) (start stop : ℚ) : String :=
  match (overlapList diar start stop).mergeSort byDurationDesc with
  | [] => "unknown"
  | p :: _ => p.1

/-- `Diarizer.merge_with_transcription` (`src/diarization/__init__.py`
lines 116-161): with no diarization turns, return the transcription
unchanged; otherwise set every segment's `speaker` to its dominant
overlapping speaker (`"unknown"` if none overlaps). -/
def merge_with_transcription (diarization : DiarizationResult)
    (transcription_segments : List WhisperSegment) : List WhisperSegment :=
  if diarization.segments.isEmpty then transcription_segments
  else transcription_segments.map fun seg =>
    { seg with speaker := some (dominantSpeaker diarization.segments seg.start seg.stop) }

/-- The claim's overlap-duration formula
`max(0, min(s.end, t.end) - max(s.start, t.start))`. -/
def claimOverlap (segStart segStop : ℚ) (t : SpeakerSegment) : ℚ :=
  max 0 (min segStop t.stop - max segStart t.start)

/-! ### Head of a stable sort picks the first maximum -/

/-- The first element of a list that no later element strictly beats under
`le`; this is what the head of any stable `le`-sort is. -/
def pickFirst (le : α → α → Bool) : List α → Option α
  | [] => none
  | a :: l =>
    match pickFirst le l with
    | none => some a
    | some m => if le a m then some a else some m

lemma pickFirst_eq_none_iff (le : α → α → Bool) (l : List α) :
    pickFirst le l = none ↔ l = [] := by
  cases l with
  | nil => simp [pickFirst]
  | cons a t =>
    simp only [pickFirst]
    cases pickFirst le t with
    | none => simp
    | some m =>
      by_cases h : le a m <;> simp [h]

lemma head?_mergeSort (le : α → α → Bool)
    (htrans : ∀ a b c, le a b → le b c → le a c)
    (htotal : ∀ a b, le a b || le b a) :
    ∀ l : List α, (l.mergeSort le).head? = pickFirst le l := by
  intro l
  induction l with
  | nil => simp [pickFirst]
  | cons a t ih =>
    obtain ⟨l₁, l₂, h₁, h₂, h₃⟩ := List.mergeSort_cons htrans htotal a t
    rw [h₂] at ih
    rw [h₁]
    cases l₁ with
    | nil =>
      simp only [List.nil_append, List.head?_cons]
      simp only [List.nil_append] at ih
      cases hp : pickFirst le t with
      | none => simp [pickFirst, hp]
      | some m =>
        have hm : m ∈ l₂ := by
          apply List.mem_of_mem_head?
          rw [ih, hp]
          exact Option.mem_some_iff.mpr rfl
        have hs := List.sorted_mergeSort htrans htotal (a :: t)
        rw [h₁] at hs
        simp only [List.nil_append, List.pairwise_cons] at hs
        have ham : le a m := hs.1 m hm
        simp [pickFirst, hp, ham]
    | cons c t₁ =>
      simp only [List.cons_append, List.head?_cons] at ih ⊢
      have hc : le a c = false := by
        have := h₃ c (List.mem_cons_self c t₁)
        simpa using this
      simp [pickFirst, ← ih, hc]

/-! ### Characterizing the dominant speaker -/

lemma claimOverlap_nonneg (s e : ℚ) (t : SpeakerSegment) : 0 ≤ claimOverlap s e t :=
  le_max_left 0 _

lemma claimOverlap_of_pos (s e : ℚ) (t : SpeakerSegment)
    (h : max s t.start < min e t.stop) :
    claimOverlap s e t = min e t.stop - max s t.start := by
  unfold claimOverlap
  exact max_eq_right (by linarith)

lemma claimOverlap_of_nonpos (s e : ℚ) (t : SpeakerSegment)
    (h : ¬ max s t.start < min e t.stop) :
    claimOverlap s e t = 0 := by
  unfold claimOverlap
  exact max_eq_left (by linarith [not_lt.mp h])

lemma overlapList_eq_nil_iff (s e : ℚ) (ts : List SpeakerSegment) :
    overlapList ts s e = [] ↔ ∀ t ∈ ts, claimOverlap s e t ≤ 0 := by
  unfold overlapList
  rw [List.filterMap_eq_nil_iff]
  constructor
  · intro h t ht
    have := h t ht
    by_cases ho : max s t.start < min e t.stop
    · simp [ho] at this
    · rw [claimOverlap_of_nonpos s e t ho]
  · intro h t ht
    have := h t ht
    by_cases ho : max s t.start < min e t.stop
    · exfalso
      rw [claimOverlap_of_pos s e t ho] at this
      linarith
    · simp [ho]

/-- `pickFirst byDurationDesc` over the overlap list picks a positive-overlap
turn of maximal overlap, earliest-start among the maximal ones (the turn list
being sorted by start). -/
lemma pickFirst_overlapList (s e : ℚ) :
    ∀ (ts : List SpeakerSegment),
      ts.Pairwise (fun a b => a.start ≤ b.start) →
      (∃ t ∈ ts, 0 < claimOverlap s e t) →
      ∃ t ∈ ts,
        pickFirst byDurationDesc (overlapList ts s e) =
          some (t.speaker, claimOverlap s e t) ∧
        0 < claimOverlap s e t ∧
        (∀ u ∈ ts, claimOverlap s e u ≤ claimOverlap s e t) ∧
        (∀ u ∈ ts, claimOverlap s e u = claimOverlap s e t → t.start ≤ u.start) := by
  intro ts
  induction ts with
  | nil => rintro - ⟨t, ht, -⟩; exact absurd ht (List.not_mem_nil t)
  | cons t₀ rest ih =>
    intro hsort hex
    have hsort' : rest.Pairwise (fun a b => a.start ≤ b.start) :=
      (List.pairwise_cons.mp hsort).2
    have hstart : ∀ u ∈ rest, t₀.start ≤ u.start := (List.pairwise_cons.mp hsort).1
    by_cases h₀ : max s t₀.start < min e t₀.stop
    · -- head turn overlaps: it contributes the first pair of the overlap list
      have hov₀ : claimOverlap s e t₀ = min e t₀.stop - max s t₀.start :=
        claimOverlap_of_pos s e t₀ h₀
      have hpos₀ : 0 < claimOverlap s e t₀ := by rw [hov₀]; linarith
      have hlist : overlapList (t₀ :: rest) s e =
          (t₀.speaker, min e t₀.stop - max s t₀.start) :: overlapList rest s e := by
        unfold overlapList
        apply List.filterMap_cons_some
        show (if max s t₀.start < min e t₀.stop
            then some (t₀.speaker, min e t₀.stop - max s t₀.start) else none) = _
        rw [if_pos h₀]
      by_cases hrest : ∃ u ∈ rest, 0 < claimOverlap s e u
      · obtain ⟨tr, htr, hpick, hposr, hmaxr, htier⟩ := ih hsort' hrest
        rw [hlist]
        simp only [pickFirst, hpick]
        by_cases hcmp : claimOverlap s e tr ≤ min e t₀.stop - max s t₀.start
        · -- the head turn is at least as large: stable sort keeps it first
          refine ⟨t₀, List.mem_cons_self t₀ rest, ?_, hpos₀, ?_, ?_⟩
          · rw [← hov₀] at hcmp ⊢
            simp [byDurationDesc, hcmp]
          · intro u hu
            rcases List.mem_cons.mp hu with rfl | hu'
            · exact le_refl _
            · exact le_trans (hmaxr u hu') (by rw [← hov₀] at hcmp; exact hcmp)
          · intro u hu _
            rcases List.mem_cons.mp hu with rfl | hu'
            · exact le_refl _
            · exact hstart u hu'
        · -- a later turn is strictly larger: it stays in front
          push_neg at hcmp
          rw [← hov₀] at hcmp
          refine ⟨tr, List.mem_cons_of_mem t₀ htr, ?_, hposr, ?_, ?_⟩
          · have : byDurationDesc (t₀.speaker, min e t₀.stop - max s t₀.start)
                (tr.speaker, claimOverlap s e tr) = false := by
              simp only [byDurationDesc, decide_eq_false_iff_not, not_le]
              rw [← hov₀]; exact hcmp
            simp [this]
          · intro u hu
            rcases List.mem_cons.mp hu with rfl | hu'
            · exact le_of_lt hcmp
            · exact hmaxr u hu'
          · intro u hu heq
            rcases List.mem_cons.mp hu with rfl | hu'
            · exact absurd heq (by intro h; rw [h] at hcmp; exact lt_irrefl _ hcmp)
            · exact htier u hu' heq
      · -- no later turn overlaps: the head pair stands alone
        push_neg at hrest
        have hnil : overlapList rest s e = [] := by
          rw [overlapList_eq_nil_iff]
          intro u hu
          exact hrest u hu
        rw [hlist, hnil]
        refine ⟨t₀, List.mem_cons_self t₀ rest, ?_, hpos₀, ?_, ?_⟩
        · simp [pickFirst, hov₀]
        · intro u hu
          rcases List.mem_cons.mp hu with rfl | hu'
          · exact le_refl _
          · exact le_trans (hrest u hu') (le_of_lt hpos₀)
        · intro u hu heq
          rcases List.mem_cons.mp hu with rfl | hu'
          · exact le_refl _
          · exact hstart u hu'
    · -- head turn does not overlap: it contributes nothing
      have hov₀ : claimOverlap s e t₀ = 0 := claimOverlap_of_nonpos s e t₀ h₀
      have hlist : overlapList (t₀ :: rest) s e = overlapList rest s e := by
        unfold overlapList
        apply List.filterMap_cons_none
        show (if max s t₀.start < min e t₀.stop
            then some (t₀.speaker, min e t₀.stop - max s t₀.start) else none) = none
        rw [if_neg h₀]
      have hrest : ∃ u ∈ rest, 0 < claimOverlap s e u := by
        obtain ⟨t, ht, hpos⟩ := hex
        rcases List.mem_cons.mp ht with rfl | ht'
        · rw [hov₀] at hpos; exact absurd hpos (lt_irrefl 0)
        · exact ⟨t, ht', hpos⟩
      obtain ⟨tr, htr, hpick, hposr, hmaxr, htier⟩ := ih hsort' hrest
      rw [hlist]
      refine ⟨tr, List.mem_cons_of_mem t₀ htr, hpick, hposr, ?_, ?_⟩
      · intro u hu
        rcases List.mem_cons.mp hu with rfl | hu'
        · rw [hov₀]; exact le_of_lt hposr
        · exact hmaxr u hu'
      · intro u hu heq
        rcases List.mem_cons.mp hu with rfl | hu'
        · rw [hov₀] at heq; exact absurd heq.symm (ne_of_gt hposr)
        · exact htier u hu' heq

lemma byDurationDesc_trans :
    ∀ a b c, byDurationDesc a b → byDurationDesc b c → byDurationDesc a c := by
  intro a b c hab hbc
  simp only [byDurationDesc, decide_eq_true_eq] at *
  linarith

lemma byDurationDesc_total : ∀ a b, byDurationDesc a b || byDurationDesc b a := by
  intro a b
  simp only [byDurationDesc, Bool.or_eq_true, decide_eq_true_eq]
  exact le_total b.2 a.2

/-- Characterization of `dominantSpeaker` via the stable sort. -/
lemma dominantSpeaker_eq (diar : List SpeakerSegment) (s e : ℚ) :
    dominantSpeaker diar s e =
      match pickFirst byDurationDesc (overlapList diar s e) with
      | none => "unknown"
      | some p => p.1 := by
  unfold dominantSpeaker
  have h := head?_mergeSort byDurationDesc byDurationDesc_trans byDurationDesc_total
    (overlapList diar s e)
  cases hms : (overlapList diar s e).mergeSort byDurationDesc with
  | nil =>
    rw [hms] at h
    simp only [List.head?_nil] at h
    rw [← h]
  | cons p l =>
    rw [hms] at h
    simp only [List.head?_cons] at h
    rw [← h]

/-- **C1.** For every transcript segment and every non-empty diarization
turn list sorted by start time, `merge_with_transcription` assigns the
segment the speaker of a strictly-positively-overlapping turn whose overlap
duration `max(0, min(s.end, t.end) - max(s.start, t.start))` is maximal,
with earliest turn start among the maximal ones; if no turn overlaps
strictly positively, it assigns the sentinel `"unknown"`. -/
theorem merge_assigns_max_overlap_speaker
    (turns : List SpeakerSegment) (nspk : ℕ)
    (hne : turns ≠ [])
    (hsort : turns.Pairwise (fun a b => a.start ≤ b.start))
    (segs : List WhisperSegment) (i : ℕ) (hi : i < segs.length) :
    ∃ hi' : i < (merge_with_transcription ⟨turns, nspk⟩ segs).length,
      (merge_with_transcription ⟨turns, nspk⟩ segs)[i].speaker =
        some (dominantSpeaker turns segs[i].start segs[i].stop) ∧
      ((∀ t ∈ turns, claimOverlap segs[i].start segs[i].stop t ≤ 0) →
        dominantSpeaker turns segs[i].start segs[i].stop = "unknown") ∧
      ((∃ t ∈ turns, 0 < claimOverlap segs[i].start segs[i].stop t) →
        ∃ t ∈ turns,
          dominantSpeaker turns segs[i].start segs[i].stop = t.speaker ∧
          0 < claimOverlap segs[i].start segs[i].stop t ∧
          (∀ u ∈ turns,
            claimOverlap segs[i].start segs[i].stop u ≤
              claimOverlap segs[i].start segs[i].stop t) ∧
          (∀ u ∈ turns,
            claimOverlap segs[i].start segs[i].stop u =
              claimOverlap segs[i].start segs[i].stop t → t.start ≤ u.start)) := by
  have hne' : (List.isEmpty turns) = false := by
    cases turns with
    | nil => exact absurd rfl hne
    | cons a t => rfl
  have hmap : merge_with_transcription ⟨turns, nspk⟩ segs =
      segs.map (fun seg =>
        { seg with speaker := some (dominantSpeaker turns seg.start seg.stop) }) := by
    unfold merge_with_transcription
    simp [hne']
  have hlen : i < (merge_with_transcription ⟨turns, nspk⟩ segs).length := by
    rw [hmap, List.length_map]
    exact hi
  refine ⟨hlen, ?_, ?_, ?_⟩
  · rw [List.getElem_of_eq hmap hlen, List.getElem_map]
  · intro hnone
    rw [dominantSpeaker_eq]
    have : overlapList turns segs[i].start segs[i].stop = [] :=
      (overlapList_eq_nil_iff _ _ _).mpr hnone
    rw [this]
    rfl
  · intro hex
    obtain ⟨t, ht, hpick, hpos, hmax, htie⟩ :=
      pickFirst_overlapList segs[i].start segs[i].stop turns hsort hex
    refine ⟨t, ht, ?_, hpos, hmax, htie⟩
    rw [dominantSpeaker_eq, hpick]

/-- Witness for `merge_assigns_max_overlap_speaker` at the spec's example:
segment `[2, 5]`, turns `A = [0, 3]`, `B = [3, 6]`; also checks concretely
that the assigned label is `speaker_B` (overlap 2 beats overlap 1). -/
theorem merge_assigns_max_overlap_speaker_witness :
    dominantSpeaker
      [⟨0, 3, "speaker_A"⟩, ⟨3, 6, "speaker_B"⟩]
      ((([⟨7, 2, 5, "hello", none⟩] : List WhisperSegment)[0]).start)
      ((([⟨7, 2, 5, "hello", none⟩] : List WhisperSegment)[0]).stop) = "speaker_B" ∧
    ∃ hi' : 0 < (merge_with_transcription
        ⟨[⟨0, 3, "speaker_A"⟩, ⟨3, 6, "speaker_B"⟩], 2⟩
        [⟨7, 2, 5, "hello", none⟩]).length,
      (merge_with_transcription
        ⟨[⟨0, 3, "speaker_A"⟩, ⟨3, 6, "speaker_B"⟩], 2⟩
        [⟨7, 2, 5, "hello", none⟩])[0].speaker =
        some (dominantSpeaker [⟨0, 3, "speaker_A"⟩, ⟨3, 6, "speaker_B"⟩]
          ((([⟨7, 2, 5, "hello", none⟩] : List WhisperSegment)[0]).start)
          ((([⟨7, 2, 5, "hello", none⟩] : List WhisperSegment)[0]).stop)) := by
  constructor
  · show dominantSpeaker [⟨0, 3, "speaker_A"⟩, ⟨3, 6, "speaker_B"⟩] 2 5 = "speaker_B"
    rw [dominantSpeaker_eq]
    norm_num [overlapList, pickFirst, byDurationDesc]
  · obtain ⟨hi', h1, -, -⟩ :=
      merge_assigns_max_overlap_speaker
        [⟨0, 3, "speaker_A"⟩, ⟨3, 6, "speaker_B"⟩] 2
        (by simp)
        (by norm_num)
        [⟨7, 2, 5, "hello", none⟩] 0 (by norm_num)
    exact ⟨hi', h1⟩

/-! ## Offset reconciliation (`src/api.py`, `transcribe_audio` lines 134-160)

The chunk loop transcribes chunk `i`, shifts its (chunk-local) segment times
by `i * chunk_duration` when `i > 0`, and appends text and segments to the
file-level accumulators; the file-level text is the space-join of the
per-chunk texts. -/

/-- `segment.start += offset; segment.end += offset` (`src/api.py` 152-154). -/
def offsetSegment (off : ℚ) (s : WhisperSegment) : WhisperSegment :=
  { s with start := s.start + off, stop := s.stop + off }

/-- One iteration of the chunk loop (`src/api.py` lines 138-157): `p.1` is
the `enumerate` index, `p.2.1`/`p.2.2` the chunk's transcribed text and
segments. -/
def chunkStep (C : ℕ) (acc : List String × List WhisperSegment)
    (p : ℕ × String × List WhisperSegment) : List String × List WhisperSegment :=
  let segs := if 0 < p.1 then (p.2.2).map (offsetSegment ((p.1 : ℚ) * C)) else p.2.2
  (acc.1 ++ [p.2.1], acc.2 ++ segs)

/-- The chunk loop of `transcribe_audio` (`src/api.py` lines 134-160) over
the per-chunk transcription results, returning `(full_text, all_segments)`. -/
def processChunks (C : ℕ) (chunkResults : List (String × List WhisperSegment)) :
    String × List WhisperSegment :=
  let folded := chunkResults.enum.foldl (chunkStep C) ([], [])
  (String.intercalate " " folded.1, folded.2)

lemma offsetSegment_zero (s : WhisperSegment) : offsetSegment 0 s = s := by
  cases s
  simp [offsetSegment]

lemma foldl_chunkStep (C : ℕ) :
    ∀ (l : List (String × List WhisperSegment)) (k : ℕ)
      (acc : List String × List WhisperSegment),
      (l.enumFrom k).foldl (chunkStep C) acc =
        (acc.1 ++ l.map (fun p => p.1),
         acc.2 ++ ((l.enumFrom k).map (fun p =>
           (p.2.2).map (offsetSegment ((p.1 : ℚ) * C)))).flatten) := by
  intro l
  induction l with
  | nil => intro k acc; simp
  | cons a t ih =>
    intro k acc
    rw [List.enumFrom_cons, List.foldl_cons, ih (k + 1)]
    have hsegs : (if 0 < k then a.2.map (offsetSegment ((k : ℚ) * C)) else a.2) =
        a.2.map (offsetSegment ((k : ℚ) * C)) := by
      by_cases hk : 0 < k
      · rw [if_pos hk]
      · have hk0 : k = 0 := by omega
        subst hk0
        rw [if_neg hk]
        push_cast
        rw [show offsetSegment ((0 : ℚ) * C) = id from funext fun s => by
          simpa using offsetSegment_zero s, List.map_id]
    simp only [chunkStep, hsegs, List.enumFrom_cons, List.map_cons, List.flatten_cons]
    simp [List.append_assoc]

/-- The file-level segment list is chunk `i`'s raw segments shifted by
`i * C`, concatenated in chunk order. -/
lemma processChunks_segments (C : ℕ) (chunkResults : List (String × List WhisperSegment)) :
    (processChunks C chunkResults).2 =
      (chunkResults.enum.map (fun p =>
        (p.2.2).map (fun s =>
          { s with start := s.start + (p.1 : ℚ) * C,
                   stop := s.stop + (p.1 : ℚ) * C }))).flatten := by
  unfold processChunks
  show ((chunkResults.enumFrom 0).foldl (chunkStep C) ([], [])).2 = _
  rw [foldl_chunkStep C chunkResults 0 ([], [])]
  rfl

/-- **C5.** After the chunk loop, the file-level segment list is exactly the
concatenation, in chunk order, of chunk `i`'s raw segments with `i * C`
added to every `start` and `end` — the offset is applied before the segments
are concatenated into the file-level list. -/
theorem offset_reconciliation (C : ℕ) (chunkResults : List (String × List WhisperSegment)) :
    (processChunks C chunkResults).2 =
      (chunkResults.enum.map (fun p =>
        (p.2.2).map (fun s =>
          { s with start := s.start + (p.1 : ℚ) * C,
                   stop := s.stop + (p.1 : ℚ) * C }))).flatten :=
  processChunks_segments C chunkResults

/-! ### Monotonicity of the reconciled segment list -/

lemma mem_flatten_shifted_lb (C : ℕ) :
    ∀ (l : List (String × List WhisperSegment)) (k : ℕ),
      (∀ p ∈ l, ∀ s ∈ p.2, 0 ≤ s.start) →
      ∀ y ∈ ((l.enumFrom k).map (fun p =>
          (p.2.2).map (offsetSegment ((p.1 : ℚ) * C)))).flatten,
        (k : ℚ) * C ≤ y.start := by
  intro l
  induction l with
  | nil => intro k _ y hy; simp at hy
  | cons a t ih =>
    intro k hnn y hy
    rw [List.enumFrom_cons, List.map_cons, List.flatten_cons, List.mem_append] at hy
    rcases hy with hy | hy
    · obtain ⟨s, hs, rfl⟩ := List.mem_map.mp hy
      have h0 : 0 ≤ s.start := (hnn a (List.mem_cons_self a t) s hs)
      simp only [offsetSegment]
      linarith
    · have := ih (k + 1) (fun p hp => hnn p (List.mem_cons_of_mem a hp)) y hy
      have hkc : (k : ℚ) * C ≤ ((k : ℚ) + 1) * C := by
        have : (0 : ℚ) ≤ C := by positivity
        nlinarith
      push_cast at this
      linarith

lemma flatten_shifted_sorted (C : ℕ) :
    ∀ (l : List (String × List WhisperSegment)) (k : ℕ),
      (∀ p ∈ l, ((p.2).map (fun s => s.start)).Pairwise (· ≤ ·) ∧
        ∀ s ∈ p.2, 0 ≤ s.start ∧ s.start ≤ C) →
      (((l.enumFrom k).map (fun p =>
          (p.2.2).map (offsetSegment ((p.1 : ℚ) * C)))).flatten.map
        (fun s => s.start)).Pairwise (· ≤ ·) := by
  intro l
  induction l with
  | nil => intro k _; simp
  | cons a t ih =>
    intro k h
    rw [List.enumFrom_cons, List.map_cons, List.flatten_cons, List.map_append,
      List.pairwise_append]
    obtain ⟨hsorted, hbound⟩ := h a (List.mem_cons_self a t)
    have hrest := fun p hp => h p (List.mem_cons_of_mem a hp)
    refine ⟨?_, ?_, ?_⟩
    · -- the shifted head chunk stays sorted
      rw [List.map_map]
      have : ((fun s => s.start) ∘ offsetSegment ((k : ℚ) * C)) =
          (fun s : WhisperSegment => s.start + (k : ℚ) * C) := by
        funext s
        simp [offsetSegment]
      rw [this]
      have hmap : (a.2.map fun s => s.start + (k : ℚ) * C) =
          ((a.2.map fun s => s.start).map fun x => x + (k : ℚ) * C) := by
        rw [List.map_map]
        rfl
      rw [hmap, List.pairwise_map]
      exact hsorted.imp (by intro x y hxy; linarith)
    · exact ih (k + 1) (fun p hp => hrest p hp)
    · -- every element of the head chunk precedes every later element
      intro x hx y hy
      rw [List.mem_map] at hx hy
      obtain ⟨sx, hsx, rfl⟩ := hx
      obtain ⟨sy, hsy, rfl⟩ := hy
      obtain ⟨sx0, hsx0, rfl⟩ := List.mem_map.mp hsx
      have hub : sx0.start ≤ C := (hbound sx0 hsx0).2
      have hlb := mem_flatten_shifted_lb C t (k + 1)
        (fun p hp s hs => ((hrest p hp).2 s hs).1) sy hsy
      simp only [offsetSegment]
      push_cast at hlb
      nlinarith [hlb]

/-- **C6.** If every chunk's raw segments have non-decreasing start times
lying within `[0, chunk_duration]`, then after offset reconciliation the
concatenated file-level segment list has non-decreasing start times across
the whole file. -/
theorem segments_sorted_after_reconciliation (C : ℕ)
    (chunkResults : List (String × List WhisperSegment))
    (h : ∀ p ∈ chunkResults,
      ((p.2).map (fun s => s.start)).Pairwise (· ≤ ·) ∧
      ∀ s ∈ p.2, 0 ≤ s.start ∧ s.start ≤ C) :
    ((processChunks C chunkResults).2.map (fun s => s.start)).Pairwise (· ≤ ·) := by
  rw [processChunks_segments C chunkResults]
  have hshape : (chunkResults.enum.map (fun p =>
      (p.2.2).map (fun s =>
        { s with start := s.start + (p.1 : ℚ) * C,
                 stop := s.stop + (p.1 : ℚ) * C }))) =
      (chunkResults.enumFrom 0).map (fun p =>
        (p.2.2).map (offsetSegment ((p.1 : ℚ) * C))) := rfl
  rw [hshape]
  exact flatten_shifted_sorted C chunkResults 0 h

/-- Witness for `segments_sorted_after_reconciliation`: two chunks of a
700-second file with `C = 300`. -/
theorem segments_sorted_after_reconciliation_witness :
    ((processChunks 300
      [("first", [⟨0, 0, 10, "a", none⟩, ⟨1, 250, 280, "b", none⟩]),
       ("second", [⟨0, 5, 60, "c", none⟩, ⟨1, 90, 140, "d", none⟩])]).2.map
        (fun s => s.start)).Pairwise (· ≤ ·) := by
  apply segments_sorted_after_reconciliation
  intro p hp
  fin_cases hp <;> norm_num

/-! ## Request-handler control flow (`src/api.py`, `transcribe_audio`,
lines 72-252)

The handler's observable outcome is modelled as the final HTTP status plus
the per-request temporary files still on disk when the response (or error)
leaves the handler.  The external steps are abstracted by oracles:
`convertOk` (does `convert_audio_to_wav`'s external tool succeed — the only
statement inside the `try:` block that can raise after the upload copy is
written: `split_audio_into_chunks`, `Diarizer.__init__`, `Diarizer.diarize`
and `transcribe_audio_chunk` all swallow their own exceptions) and
`ffmpegOk` (per-window success of the splitting tool, as in
`split_audio_into_chunks`).

Key control-flow facts embedded from the source:
* the `503` for a missing model (line 95-96) is raised before the `try:`,
  so it propagates as written;
* `raise HTTPException(status_code=400, ...)` for an unsupported
  `response_format` (line 248) sits inside the `try:` block, and
  `fastapi.HTTPException` is a subclass of `Exception`, so the
  `except Exception` handler (lines 250-252) catches it and re-raises
  `HTTPException(status_code=500, detail=str(e))`;
* the cleanup block (lines 227-234) runs only on the straight-line path:
  there is no `finally`, so an exception raised earlier (e.g. a conversion
  failure) leaves the upload copy on disk; `convert_audio_to_wav` itself
  deletes its own output on failure (`src/audio.py` lines 115-123);
* when splitting falls back after a failing window, the chunk files already
  written for earlier windows are never referenced again (the returned list
  is `[wav]`), so the success-path cleanup never deletes them. -/

/-- A per-request temporary file of `transcribe_audio`. -/
inductive TempFile where
  | upload
  | wav
  | chunkFile (i : ℕ)
  deriving Repr, DecidableEq

/-- Final observable outcome of one request. -/
structure HandlerOutcome where
  status : ℕ
  tempFilesLeft : List TempFile
  deriving Repr, DecidableEq

/-- The `response_format` values the dispatch at `src/api.py` lines 237-246
returns normally for. -/
def supportedFormats : List String := ["json", "text", "srt", "vtt", "verbose_json"]

/-- Status and leftover temporary files of one `transcribe_audio` request
(`src/api.py` lines 93-252). -/
def transcribe_audio_outcome (modelLoaded : Bool) (convertOk : Bool)
    (D : ℚ) (C : ℕ) (ffmpegOk : ℕ → Bool) (response_format : String) :
    HandlerOutcome :=
  if modelLoaded = false then
    { status := 503, tempFilesLeft := [] }
  else if convertOk = false then
    { status := 500, tempFilesLeft := [.upload] }
  else
    let strayChunks : List TempFile :=
      if D ≤ C then []
      else
        match (List.range ⌈D / C⌉₊).findIdx? (fun i => !ffmpegOk i) with
        | none => []
        | some firstBad => (List.range firstBad).map .chunkFile
    if response_format ∈ supportedFormats then
      { status := 200, tempFilesLeft := strayChunks }
    else
      { status := 500, tempFilesLeft := strayChunks }

/-- **C3** (the claim the code violates): a request with an unsupported
`response_format` is answered with HTTP 500, not 400 — the
`HTTPException(400)` raised inside the `try:` block is caught by the blanket
`except Exception` and re-raised as a 500. -/
theorem unsupported_format_returns_500 :
    (transcribe_audio_outcome true true 100 300 (fun _ => true) "xml").status = 500 ∧
    (transcribe_audio_outcome true true 100 300 (fun _ => true) "xml").status ≠ 400 := by
  constructor <;> decide

/-- **C9** (the claim the code violates): temporary files are not deleted on
every exit path.  When audio conversion fails, the handler propagates a 500
with the uploaded file copy still on disk; when splitting falls back after a
failing window, the already-written chunk files survive even a successful
(200) request. -/
theorem temp_files_leak_on_error_paths :
    ((transcribe_audio_outcome true false 100 300 (fun _ => true) "json").status = 500 ∧
      (transcribe_audio_outcome true false 100 300
        (fun _ => true) "json").tempFilesLeft = [.upload]) ∧
    ((transcribe_audio_outcome true true 700 300 (fun i => i == 0) "json").status = 200 ∧
      (transcribe_audio_outcome true true 700 300
        (fun i => i == 0) "json").tempFilesLeft = [.chunkFile 0]) := by
  refine ⟨⟨by decide, by decide⟩, ?_⟩
  have hceil : ⌈(700 : ℚ) / (300 : ℚ)⌉₊ = 3 := by
    norm_num [Nat.ceil_eq_iff]
  constructor <;>
    · simp only [transcribe_audio_outcome, Nat.cast_ofNat, hceil]
      norm_num [List.range_succ, List.findIdx?, supportedFormats]
      try decide

/-! ## Speaker-prefixed text reconstruction (`src/api.py`, lines 171-210)

The loop walks the merged segments, tracking `previous_speaker` and the set
`seen_speakers`.  For a segment with a truthy `speaker` that starts with
`"speaker_"`, it parses `int(parts[-1]) + 1` from the label split on `"_"`;
on a speaker change it prepends `"Speaker N: "` for a first appearance and
`"N: "` otherwise, then always updates `previous_speaker`; `ValueError`
falls back to a collapsed generic `"Speaker: "` tag.  Segments whose label
does not start with `"speaker_"` (or is missing/empty) are skipped entirely.
`pyInt?` models `int(...)` on sign-plus-decimal-digit strings — the only
shapes these labels take (Python additionally accepts surrounding
whitespace, a leading `+` and digit-group underscores, none of which can
occur in a part produced by splitting on `"_"` other than whitespace, which
the theorems' inputs never contain). -/

/-- Model of Python's `str.startswith(pre)`. -/
def pyStartsWith (s pre : String) : Bool := pre.toList.isPrefixOf s.toList

/-- Split on a single-character separator (Python `str.split(sep)`). -/
def pySplitAux (sep : Char) : List Char → List Char → List (List Char)
  | [], acc => [acc.reverse]
  | c :: rest, acc =>
    if c = sep then acc.reverse :: pySplitAux sep rest []
    else pySplitAux sep rest (c :: acc)

/-- Model of Python's `str.split(sep)` for a one-character separator. -/
def pySplit (s : String) (sep : Char) : List String :=
  (pySplitAux sep s.toList []).map List.asString

/-- Numeric value of a decimal digit character. -/
def digitVal (c : Char) : ℕ := c.toNat - 48

/-- Value of a non-empty decimal digit string. -/
def decDigitsToNat (ds : List Char) : ℕ :=
  ds.foldl (fun acc c => acc * 10 + digitVal c) 0

/-- Model of Python's `int(s)` on optional-minus decimal strings;
`none` models `ValueError`. -/
def pyInt? (s : String) : Option ℤ :=
  match s.toList with
  | [] => none
  | '-' :: ds =>
    if ds = [] || !(ds.all Char.isDigit) then none
    else some (-(decDigitsToNat ds : ℤ))
  | ds => if ds.all Char.isDigit then some ((decDigitsToNat ds : ℤ)) else none

/-- `int(speaker_label.split("_")[-1])` (`src/api.py` lines 186-187),
`none` when `int` raises `ValueError`. -/
def parseSpeakerNum (label : String) : Option ℤ :=
  match (pySplit label '_').getLast? with
  | some part => pyInt? part
  | none => none

/-- One iteration of the labelling loop (`src/api.py` lines 179-207) on the
state `(previous_speaker, seen_speakers)`. -/
def applyPrefixStep (st : Option String × List String) (seg : WhisperSegment) :
    (Option String × List String) × WhisperSegment :=
  match seg.speaker with
  | none => (st, seg)
  | some speaker_label =>
    if speaker_label = "" then (st, seg)
    else if pyStartsWith speaker_label "speaker_" then
      match parseSpeakerNum speaker_label with
      | some parsed =>
        let speaker_num := parsed + 1
        if st.1 = some speaker_label then
          ((some speaker_label, st.2), seg)
        else if speaker_label ∈ st.2 then
          ((some speaker_label, st.2),
            { seg with text := intStr speaker_num ++ ": " ++ seg.text })
        else
          ((some speaker_label, speaker_label :: st.2),
            { seg with text := "Speaker " ++ intStr speaker_num ++ ": " ++ seg.text })
      | none =>
        if st.1 = some "Speaker" then (st, seg)
        else ((some "Speaker", st.2), { seg with text := "Speaker: " ++ seg.text })
    else (st, seg)

/-- The labelling loop over the segment list. -/
def prefixLoop : (Option String × List String) → List WhisperSegment → List WhisperSegment
  | _, [] => []
  | st, seg :: rest =>
    let r := applyPrefixStep st seg
    r.2 :: prefixLoop r.1 rest

/-- The full labelling pass of `src/api.py` lines 173-207 (initial state:
no previous speaker, empty seen set). -/
def applySpeakerLabels (segs : List WhisperSegment) : List WhisperSegment :=
  prefixLoop (none, []) segs

/-- `full_text = " ".join(segment.text for segment in all_segments)`
(`src/api.py` line 210). -/
def fullTextWithSpeakers (segs : List WhisperSegment) : String :=
  String.intercalate " " ((applySpeakerLabels segs).map (fun s => s.text))

/-- The segment texts as claim C7 words them: a segment equal in speaker to
its predecessor is unprefixed; otherwise it gets `"Speaker N: "` on speaker
`N`'s first appearance anywhere in the file and `"N: "` on a change back to
an already-seen speaker.  Stated for lists whose speakers are all
well-formed `speaker_*` labels, with `num l` the parsed index of label `l`
(so the displayed number is `num l + 1`). -/
def claimTexts (num : String → ℤ) : Option String → List ℤ → List WhisperSegment → List String
  | _, _, [] => []
  | prev, seenN, seg :: rest =>
    let label := seg.speaker.getD ""
    (if prev = some label then seg.text
     else if (num label + 1) ∈ seenN then intStr (num label + 1) ++ ": " ++ seg.text
     else "Speaker " ++ intStr (num label + 1) ++ ": " ++ seg.text) ::
    claimTexts num (some label) ((num label + 1) :: seenN) rest

lemma pyStartsWith_ne_empty {l : String} (h : pyStartsWith l "speaker_" = true) :
    l ≠ "" := by
  intro he
  subst he
  exact absurd h (by decide)

lemma prefixLoop_cons (st : Option String × List String) (seg : WhisperSegment)
    (rest : List WhisperSegment) :
    prefixLoop st (seg :: rest) =
      (applyPrefixStep st seg).2 :: prefixLoop (applyPrefixStep st seg).1 rest := rfl

lemma claimTexts_cons (num : String → ℤ) (prev : Option String) (seenN : List ℤ)
    (seg : WhisperSegment) (rest : List WhisperSegment) :
    claimTexts num prev seenN (seg :: rest) =
      (if prev = some (seg.speaker.getD "") then seg.text
       else if (num (seg.speaker.getD "") + 1) ∈ seenN then
         intStr (num (seg.speaker.getD "") + 1) ++ ": " ++ seg.text
       else "Speaker " ++ intStr (num (seg.speaker.getD "") + 1) ++ ": " ++ seg.text) ::
      claimTexts num (some (seg.speaker.getD ""))
        ((num (seg.speaker.getD "") + 1) :: seenN) rest := rfl

lemma prefixLoop_claimTexts (num : String → ℤ) (dom : List String)
    (hinj : ∀ a ∈ dom, ∀ b ∈ dom, num a = num b → a = b) :
    ∀ (segs : List WhisperSegment) (prev : Option String) (seenL : List String)
      (seenN : List ℤ),
      (∀ s ∈ segs, ∃ l, s.speaker = some l ∧ l ∈ dom ∧
        pyStartsWith l "speaker_" = true ∧ parseSpeakerNum l = some (num l)) →
      (∀ l ∈ seenL, l ∈ dom) →
      (∀ l, prev = some l → l ∈ seenL) →
      (∀ n, n ∈ seenN ↔ ∃ l ∈ seenL, n = num l + 1) →
      (prefixLoop (prev, seenL) segs).map (fun s => s.text) =
        claimTexts num prev seenN segs := by
  intro segs
  induction segs with
  | nil => intro prev seenL seenN _ _ _ _; rfl
  | cons seg rest ih =>
    intro prev seenL seenN hW hdomL hprev hiff
    obtain ⟨l, hl, hldom, hlsw, hlparse⟩ := hW seg (List.mem_cons_self seg rest)
    have hlne : l ≠ "" := pyStartsWith_ne_empty hlsw
    have hrest : ∀ s ∈ rest, ∃ l, s.speaker = some l ∧ l ∈ dom ∧
        pyStartsWith l "speaker_" = true ∧ parseSpeakerNum l = some (num l) :=
      fun s hs => hW s (List.mem_cons_of_mem seg hs)
    have hlabel : seg.speaker.getD "" = l := by rw [hl]; rfl
    rw [prefixLoop_cons, claimTexts_cons, hlabel]
    by_cases hp : prev = some l
    · have hstep : applyPrefixStep (prev, seenL) seg = ((some l, seenL), seg) := by
        unfold applyPrefixStep
        rw [hl]
        simp [hlne, hlsw, hlparse, hp]
      have hlm : l ∈ seenL := hprev l hp
      rw [hstep, if_pos hp, List.map_cons]
      rw [ih (some l) seenL ((num l + 1) :: seenN) hrest hdomL
        (fun x hx => by cases hx; exact hlm)
        (by
          intro n
          constructor
          · intro hn
            rcases List.mem_cons.mp hn with rfl | hn'
            · exact ⟨l, hlm, rfl⟩
            · exact (hiff n).mp hn'
          · intro hn
            obtain ⟨l', hl', he⟩ := hn
            exact List.mem_cons_of_mem _ ((hiff n).mpr ⟨l', hl', he⟩))]
    · by_cases hm : l ∈ seenL
      · have hstep : applyPrefixStep (prev, seenL) seg = ((some l, seenL),
            { seg with text := intStr (num l + 1) ++ ": " ++ seg.text }) := by
          unfold applyPrefixStep
          rw [hl]
          simp [hlne, hlsw, hlparse, hp, hm]
        have hnm : (num l + 1) ∈ seenN := (hiff _).mpr ⟨l, hm, rfl⟩
        rw [hstep, if_neg hp, if_pos hnm, List.map_cons]
        rw [ih (some l) seenL ((num l + 1) :: seenN) hrest hdomL
          (fun x hx => by cases hx; exact hm)
          (by
            intro n
            constructor
            · intro hn
              rcases List.mem_cons.mp hn with rfl | hn'
              · exact ⟨l, hm, rfl⟩
              · exact (hiff n).mp hn'
            · intro hn
              obtain ⟨l', hl', he⟩ := hn
              exact List.mem_cons_of_mem _ ((hiff n).mpr ⟨l', hl', he⟩))]
      · have hstep : applyPrefixStep (prev, seenL) seg = ((some l, l :: seenL),
            { seg with text := "Speaker " ++ intStr (num l + 1) ++ ": " ++ seg.text }) := by
          unfold applyPrefixStep
          rw [hl]
          simp [hlne, hlsw, hlparse, hp, hm]
        have hnm : (num l + 1) ∉ seenN := by
          intro hn
          obtain ⟨l', hl', he⟩ := (hiff _).mp hn
          have heq : l' = l := hinj l' (hdomL l' hl') l hldom (by omega)
          subst heq
          exact hm hl'
        rw [hstep, if_neg hp, if_neg hnm, List.map_cons]
        rw [ih (some l) (l :: seenL) ((num l + 1) :: seenN) hrest
          (by
            intro x hx
            rcases List.mem_cons.mp hx with rfl | hx'
            · exact hldom
            · exact hdomL x hx')
          (fun x hx => by cases hx; exact List.mem_cons_self l seenL)
          (by
            intro n
            constructor
            · intro hn
              rcases List.mem_cons.mp hn with rfl | hn'
              · exact ⟨l, List.mem_cons_self l seenL, rfl⟩
              · obtain ⟨l', hl', he⟩ := (hiff n).mp hn'
                exact ⟨l', List.mem_cons_of_mem l hl', he⟩
            · intro hn
              obtain ⟨l', hl', he⟩ := hn
              rcases List.mem_cons.mp hl' with rfl | hl''
              · rw [he]
                exact List.mem_cons_self _ _
              · exact List.mem_cons_of_mem _ ((hiff n).mpr ⟨l', hl'', he⟩))]

theorem speaker_prefix_reconstruction (segs : List WhisperSegment) (num : String → ℤ)
    (hw : ∀ s ∈ segs, ∃ l, s.speaker = some l ∧
      pyStartsWith l "speaker_" = true ∧ parseSpeakerNum l = some (num l))
    (hinj : ∀ s ∈ segs, ∀ t ∈ segs, ∀ ls lt, s.speaker = some ls →
      t.speaker = some lt → num ls = num lt → ls = lt) :
    (applySpeakerLabels segs).map (fun s => s.text) = claimTexts num none [] segs ∧
    fullTextWithSpeakers segs =
      String.intercalate " " (claimTexts num none [] segs) := by
  have hmain : (applySpeakerLabels segs).map (fun s => s.text) =
      claimTexts num none [] segs := by
    apply prefixLoop_claimTexts num (segs.filterMap (fun s => s.speaker))
    · intro a ha b hb hab
      obtain ⟨sa, hsa, hsa'⟩ := List.mem_filterMap.mp ha
      obtain ⟨sb, hsb, hsb'⟩ := List.mem_filterMap.mp hb
      exact hinj sa hsa sb hsb a b hsa' hsb' hab
    · intro s hs
      obtain ⟨l, hl, hsw, hparse⟩ := hw s hs
      exact ⟨l, hl, List.mem_filterMap.mpr ⟨s, hs, hl⟩, hsw, hparse⟩
    · intro l hl
      exact absurd hl (List.not_mem_nil l)
    · intro l hl
      exact absurd hl (by simp)
    · intro n
      simp
  exact ⟨hmain, by unfold fullTextWithSpeakers; rw [hmain]⟩

/-- Witness for `speaker_prefix_reconstruction` at the spec's example:
speakers `[A, A, B, A]`, texts `["hi", "there", "ok", "bye"]` render as
`"Speaker 1: hi there Speaker 2: ok 1: bye"`. -/
theorem speaker_prefix_reconstruction_witness :
    ((applySpeakerLabels
      [⟨0, 0, 1, "hi", some "speaker_SPEAKER_00"⟩,
       ⟨1, 1, 2, "there", some "speaker_SPEAKER_00"⟩,
       ⟨2, 2, 3, "ok", some "speaker_SPEAKER_01"⟩,
       ⟨3, 3, 4, "bye", some "speaker_SPEAKER_00"⟩]).map (fun s => s.text) =
      claimTexts (fun l => if l = "speaker_SPEAKER_01" then 1 else 0) none []
        [⟨0, 0, 1, "hi", some "speaker_SPEAKER_00"⟩,
         ⟨1, 1, 2, "there", some "speaker_SPEAKER_00"⟩,
         ⟨2, 2, 3, "ok", some "speaker_SPEAKER_01"⟩,
         ⟨3, 3, 4, "bye", some "speaker_SPEAKER_00"⟩] ∧
      fullTextWithSpeakers
        [⟨0, 0, 1, "hi", some "speaker_SPEAKER_00"⟩,
         ⟨1, 1, 2, "there", some "speaker_SPEAKER_00"⟩,
         ⟨2, 2, 3, "ok", some "speaker_SPEAKER_01"⟩,
         ⟨3, 3, 4, "bye", some "speaker_SPEAKER_00"⟩] =
        String.intercalate " "
          (claimTexts (fun l => if l = "speaker_SPEAKER_01" then 1 else 0) none []
            [⟨0, 0, 1, "hi", some "speaker_SPEAKER_00"⟩,
             ⟨1, 1, 2, "there", some "speaker_SPEAKER_00"⟩,
             ⟨2, 2, 3, "ok", some "speaker_SPEAKER_01"⟩,
             ⟨3, 3, 4, "bye", some "speaker_SPEAKER_00"⟩])) ∧
    fullTextWithSpeakers
      [⟨0, 0, 1, "hi", some "speaker_SPEAKER_00"⟩,
       ⟨1, 1, 2, "there", some "speaker_SPEAKER_00"⟩,
       ⟨2, 2, 3, "ok", some "speaker_SPEAKER_01"⟩,
       ⟨3, 3, 4, "bye", some "speaker_SPEAKER_00"⟩] =
      "Speaker 1: hi there Speaker 2: ok 1: bye" := by
  constructor
  · apply speaker_prefix_reconstruction
    · intro s hs
      fin_cases hs <;> exact ⟨_, rfl, by decide, by decide⟩
    · intro s hs t ht ls lt hls hlt h
      fin_cases hs <;> fin_cases ht <;>
        simp only [Option.some.injEq] at hls hlt <;>
        subst hls <;> subst hlt <;> first | rfl | (exfalso; revert h; decide)
  · decide

/-- **C10.** A segment whose speaker label does not start with `"speaker_"`
(in particular the `"unknown"` sentinel) gets no prefix and leaves the
`(previous_speaker, seen_speakers)` state untouched; consequently, for a
speaker sequence `[A, unknown, A]` the third segment is treated as a
continuation of the first and is also unprefixed. -/
theorem non_speaker_labels_skipped :
    (∀ (st : Option String × List String) (seg : WhisperSegment) (l : String),
      seg.speaker = some l → pyStartsWith l "speaker_" = false →
      applyPrefixStep st seg = (st, seg)) ∧
    (∀ (lA : String) (m : ℤ) (s1 s2 s3 : WhisperSegment),
      s1.speaker = some lA → s2.speaker = some "unknown" → s3.speaker = some lA →
      pyStartsWith lA "speaker_" = true → parseSpeakerNum lA = some m →
      (applySpeakerLabels [s1, s2, s3]).map (fun s => s.text) =
        ["Speaker " ++ intStr (m + 1) ++ ": " ++ s1.text, s2.text, s3.text]) := by
  have hskip : ∀ (st : Option String × List String) (seg : WhisperSegment) (l : String),
      seg.speaker = some l → pyStartsWith l "speaker_" = false →
      applyPrefixStep st seg = (st, seg) := by
    intro st seg l hl hsw
    unfold applyPrefixStep
    rw [hl]
    simp [hsw]
  refine ⟨hskip, ?_⟩
  intro lA m s1 s2 s3 h1 h2 h3 hsw hparse
  have hne : lA ≠ "" := pyStartsWith_ne_empty hsw
  have hstep1 : applyPrefixStep (none, []) s1 =
      ((some lA, [lA]),
        { s1 with text := "Speaker " ++ intStr (m + 1) ++ ": " ++ s1.text }) := by
    unfold applyPrefixStep
    rw [h1]
    simp [hne, hsw, hparse]
  have hstep2 : applyPrefixStep (some lA, [lA]) s2 = ((some lA, [lA]), s2) :=
    hskip _ s2 "unknown" h2 (by decide)
  have hstep3 : applyPrefixStep (some lA, [lA]) s3 = ((some lA, [lA]), s3) := by
    unfold applyPrefixStep
    rw [h3]
    simp [hne, hsw, hparse]
  unfold applySpeakerLabels
  rw [prefixLoop_cons, hstep1, prefixLoop_cons, hstep2, prefixLoop_cons, hstep3]
  rfl

/-- Witness for `non_speaker_labels_skipped`: concrete `[A, unknown, A]`
segments with `A = speaker_SPEAKER_00`. -/
theorem non_speaker_labels_skipped_witness :
    applyPrefixStep (some "speaker_SPEAKER_00", ["speaker_SPEAKER_00"])
      ⟨1, 1, 2, "mid", some "unknown"⟩ =
      ((some "speaker_SPEAKER_00", ["speaker_SPEAKER_00"]),
        ⟨1, 1, 2, "mid", some "unknown"⟩) ∧
    (applySpeakerLabels
      [⟨0, 0, 1, "one", some "speaker_SPEAKER_00"⟩,
       ⟨1, 1, 2, "mid", some "unknown"⟩,
       ⟨2, 2, 3, "back", some "speaker_SPEAKER_00"⟩]).map (fun s => s.text) =
      ["Speaker " ++ intStr (0 + 1) ++ ": " ++ "one", "mid", "back"] :=
  ⟨non_speaker_labels_skipped.1 _ _ "unknown" rfl (by decide),
   non_speaker_labels_skipped.2 "speaker_SPEAKER_00" 0 _ _ _ rfl rfl rfl
     (by decide) (by decide)⟩

/-! ## Subtitle rendering (`src/transcription.py`)

`_format_timestamp` (lines 42-66) computes hours/minutes/seconds with
Python `int(...)` truncation and float `%`, renders
`f"{hours}:{minutes:02d}:{seconds:06.3f}"` (hours unpadded, always present
in the SRT path) and, for SRT, replaces every `'.'` by `','`.  `format_srt`
(lines 68-89) emits, per segment, the 1-based index, the timestamp line,
the optional `[speaker] ` tag and the stripped text with `"-->"` replaced
by `"->"` in one left-to-right pass, each entry followed by a blank line,
and finally strips the whole string.  `fmt063` models `f"{x:06.3f}"`
exactly on millisecond-grid values, the only ones the theorems quantify
over (Python's float formatting rounds, which is the identity there). -/

/-- Python `int(q)`: truncation toward zero. -/
def pyTrunc (q : ℚ) : ℤ := if q < 0 then ⌈q⌉ else ⌊q⌋

/-- Python float `%` (used here only with positive divisors). -/
def pyMod (a b : ℚ) : ℚ := a - b * ⌊a / b⌋

/-- Zero-pad on the left to width `w` (Python's `{:0Nd}` / `{:0N.Mf}`
padding for nonnegative values). -/
def padZeros (w : ℕ) (s : String) : String :=
  ⟨List.replicate (w - s.data.length) '0' ++ s.data⟩

/-- Model of `f"{q:06.3f}"`, exact on millisecond-grid values. -/
def fmt063 (q : ℚ) : String :=
  padZeros 6 (intStr ⌊q⌋ ++ "." ++ padZeros 3 (intStr (⌊q * 1000⌋ - 1000 * ⌊q⌋)))

/-- `_format_timestamp` (`src/transcription.py` lines 42-66). -/
def format_timestamp (seconds : ℚ) (always_include_hours : Bool)
    (decimalMarker : String) : String :=
  let hours := pyTrunc (seconds / 3600)
  let s1 := pyMod seconds 3600
  let minutes := pyTrunc (s1 / 60)
  let s2 := pyMod s1 60
  let hoursMarker :=
    if always_include_hours || 0 < hours then intStr hours ++ ":" else ""
  if decimalMarker = "," then
    pyReplace (hoursMarker ++ padZeros 2 (intStr minutes) ++ ":" ++ fmt063 s2) "." ","
  else
    hoursMarker ++ padZeros 2 (intStr minutes) ++ ":" ++ fmt063 s2

/-- `format_srt` (`src/transcription.py` lines 68-89). -/
def format_srt (segments : List WhisperSegment) : String :=
  pyStrip (String.join (segments.enum.map (fun p =>
    natStr (p.1 + 1) ++ "\n" ++
    format_timestamp p.2.start true "," ++ " --> " ++
    format_timestamp p.2.stop true "," ++ "\n" ++
    (match p.2.speaker with
     | some sp => if sp = "" then "" else "[" ++ sp ++ "] "
     | none => "") ++
    pyReplace (pyStrip p.2.text) "-->" "->" ++ "\n\n")))

/-- The timestamp rendering as claim C8 describes it, on a millisecond
count: hours always shown (unpadded), minutes and whole seconds zero-padded
to 2 digits, milliseconds to 3 digits, comma decimal marker. -/
def srtTimestamp (a : ℕ) : String :=
  natStr (a / 3600000) ++ ":" ++ padZeros 2 (natStr (a / 60000 % 60)) ++ ":" ++
    padZeros 2 (natStr (a / 1000 % 60)) ++ "," ++ padZeros 3 (natStr (a % 1000))

/-! ### Decimal digit strings -/

lemma natDigitsAux_digit :
    ∀ (fuel n : ℕ), ∀ c ∈ natDigitsAux fuel n, ∃ d, d < 10 ∧ c = Char.ofNat (48 + d) := by
  intro fuel
  induction fuel with
  | zero => intro n c hc; exact absurd hc (List.not_mem_nil c)
  | succ fuel ih =>
    intro n c hc
    unfold natDigitsAux at hc
    by_cases h : n < 10
    · rw [if_pos h] at hc
      rcases List.mem_singleton.mp hc with rfl
      exact ⟨n, h, rfl⟩
    · rw [if_neg h] at hc
      rcases List.mem_append.mp hc with hc' | hc'
      · exact ih (n / 10) c hc'
      · rcases List.mem_singleton.mp hc' with rfl
        exact ⟨n % 10, Nat.mod_lt n (by omega), rfl⟩

lemma digit_char_ne_dot {d : ℕ} (hd : d < 10) : Char.ofNat (48 + d) ≠ '.' := by
  interval_cases d <;> decide

lemma natStr_ne_dot (n : ℕ) : ∀ c ∈ (natStr n).data, c ≠ '.' := by
  intro c hc
  obtain ⟨d, hd, rfl⟩ := natDigitsAux_digit (n + 1) n c hc
  exact digit_char_ne_dot hd

lemma natDigitsAux_length_le :
    ∀ (fuel k n : ℕ), 1 ≤ k → n < 10 ^ k → (natDigitsAux fuel n).length ≤ k := by
  intro fuel
  induction fuel with
  | zero => intro k n _ _; simp [natDigitsAux]
  | succ fuel ih =>
    intro k n hk hn
    unfold natDigitsAux
    by_cases h : n < 10
    · rw [if_pos h]
      simpa using hk
    · rw [if_neg h]
      have hk2 : 2 ≤ k := by
        by_contra hc
        have : k = 1 := by omega
        subst this
        simp at hn
        omega
      have hdiv : n / 10 < 10 ^ (k - 1) := by
        have h10 : 10 ^ k = 10 ^ (k - 1) * 10 := by
          rw [← pow_succ]
          congr 1
          omega
        rw [h10] at hn
        exact Nat.div_lt_of_lt_mul (by omega)
      have := ih (k - 1) (n / 10) (by omega) hdiv
      rw [List.length_append, List.length_singleton]
      omega

lemma natDigitsAux_length_pos (fuel n : ℕ) :
    1 ≤ (natDigitsAux (fuel + 1) n).length := by
  unfold natDigitsAux
  by_cases h : n < 10
  · rw [if_pos h]; simp
  · rw [if_neg h]; simp

lemma natStr_length_le {k n : ℕ} (hk : 1 ≤ k) (hn : n < 10 ^ k) :
    (natStr n).data.length ≤ k :=
  natDigitsAux_length_le (n + 1) k n hk hn

lemma natStr_length_pos (n : ℕ) : 1 ≤ (natStr n).data.length :=
  natDigitsAux_length_pos n n

lemma intStr_natCast (n : ℕ) : intStr (n : ℤ) = natStr n := by
  unfold intStr
  rw [if_neg (by exact_mod_cast Nat.not_lt_zero n : ¬ (n : ℤ) < 0)]
  simp

lemma padZeros_length (w : ℕ) (s : String) :
    (padZeros w s).data.length = max w s.data.length := by
  unfold padZeros
  simp only [List.length_append, List.length_replicate]
  omega

/-! ### Single-character replacement -/

lemma pyReplaceAux_single (c d : Char) :
    ∀ (fuel : ℕ) (l : List Char), l.length ≤ fuel →
      pyReplaceAux [c] [d] fuel l = l.map (fun x => if x = c then d else x) := by
  intro fuel
  induction fuel with
  | zero =>
    intro l hl
    have hnil : l = [] := by
      cases l with
      | nil => rfl
      | cons a t => simp at hl
    subst hnil
    rfl
  | succ fuel ih =>
    intro l hl
    cases l with
    | nil => rfl
    | cons x xs =>
      unfold pyReplaceAux
      have hpre : [c].isPrefixOf (x :: xs) = (c == x) := by
        show (c == x && List.isPrefixOf [] xs) = (c == x)
        simp
      rw [hpre]
      simp only [List.length_cons] at hl
      by_cases hx : x = c
      · subst hx
        simp [ih xs (by omega)]
      · have hbeq : (c == x) = false := by
          simp only [beq_eq_false_iff_ne, ne_eq]
          exact fun h => hx h.symm
        simp [hbeq, hx, ih xs (by omega)]

lemma pyReplace_single (s : String) (c d : Char) :
    pyReplace s (String.mk [c]) (String.mk [d]) =
      ⟨s.data.map (fun x => if x = c then d else x)⟩ := by
  unfold pyReplace
  congr 1
  exact pyReplaceAux_single c d s.toList.length s.toList (le_refl _)

/-! ### Timestamp characterization on the millisecond grid -/

lemma floor_nat_div (x y : ℕ) (hy : 0 < y) :
    ⌊(x : ℚ) / (y : ℚ)⌋ = ((x / y : ℕ) : ℤ) := by
  have hy' : (0 : ℚ) < y := by exact_mod_cast hy
  rw [Int.floor_eq_iff]
  constructor
  · rw [le_div_iff₀ hy']
    exact_mod_cast Nat.div_mul_le_self x y
  · rw [div_lt_iff₀ hy']
    have hx : x < (x / y + 1) * y := by
      rw [Nat.add_mul, Nat.one_mul]
      have h2 := Nat.div_add_mod x y
      have h3 := Nat.mod_lt x hy
      calc x = y * (x / y) + x % y := h2.symm
      _ < y * (x / y) + y := Nat.add_lt_add_left h3 _
      _ = x / y * y + y := by rw [Nat.mul_comm]
    push_cast
    exact_mod_cast hx

lemma pyTrunc_nonneg {q : ℚ} (h : 0 ≤ q) : pyTrunc q = ⌊q⌋ :=
  if_neg (not_lt.mpr h)

lemma pyMod_ms (x n : ℕ) (hn : 0 < n) :
    pyMod ((x : ℚ) / 1000) n = ((x % (1000 * n) : ℕ) : ℚ) / 1000 := by
  unfold pyMod
  have h1 : ((x : ℚ) / 1000) / n = (x : ℚ) / ((1000 * n : ℕ) : ℚ) := by
    push_cast
    rw [div_div]
  rw [h1, floor_nat_div x (1000 * n) (by positivity)]
  have hc : 1000 * (n : ℚ) * ((x / (1000 * n) : ℕ) : ℚ) +
      ((x % (1000 * n) : ℕ) : ℚ) = (x : ℚ) := by
    exact_mod_cast Nat.div_add_mod x (1000 * n)
  simp only [Int.cast_natCast]
  rw [eq_div_iff (by norm_num : (1000 : ℚ) ≠ 0)]
  linear_combination -hc

lemma dot_map_noop (l : List Char) (h : ∀ c ∈ l, c ≠ '.') :
    l.map (fun x => if x = '.' then ',' else x) = l := by
  conv_rhs => rw [← List.map_id l]
  apply List.map_congr_left
  intro c hc
  simp [h c hc]

lemma pyReplace_dot (s : String) :
    pyReplace s "." "," = ⟨s.data.map (fun x => if x = '.' then ',' else x)⟩ := by
  unfold pyReplace
  congr 1
  exact pyReplaceAux_single '.' ',' s.toList.length s.toList (le_refl _)

lemma padZeros_ne_dot (w : ℕ) (s : String) (h : ∀ c ∈ s.data, c ≠ '.') :
    ∀ c ∈ (padZeros w s).data, c ≠ '.' := by
  intro c hc
  unfold padZeros at hc
  rcases List.mem_append.mp hc with hc' | hc'
  · rw [List.eq_of_mem_replicate hc']
    decide
  · exact h c hc'

lemma padZeros6_split (s t : String) (hs : s.data.length ≤ 2) (ht : t.data.length = 3) :
    padZeros 6 (s ++ "." ++ t) = padZeros 2 s ++ "." ++ t := by
  have hdata : (s ++ "." ++ t).data = s.data ++ ['.'] ++ t.data := by
    simp [String.data_append]
  have hlen : (s ++ "." ++ t).data.length = s.data.length + 4 := by
    rw [hdata]
    simp [ht]
  apply String.ext
  show List.replicate (6 - (s ++ "." ++ t).data.length) '0' ++ (s ++ "." ++ t).data =
    ((padZeros 2 s ++ "." ++ t)).data
  rw [hlen, hdata, show 6 - (s.data.length + 4) = 2 - s.data.length from by omega]
  show _ = (List.replicate (2 - s.data.length) '0' ++ s.data) ++ ['.'] ++ t.data
  simp [List.append_assoc]

/-- `_format_timestamp` in SRT mode agrees with the claim's
`H:MM:SS,mmm` rendering on millisecond-grid inputs. -/
lemma format_timestamp_ms (a : ℕ) :
    format_timestamp ((a : ℚ) / 1000) true "," = srtTimestamp a := by
  have hq : (0 : ℚ) ≤ (a : ℚ) / 1000 := by positivity
  -- hours
  have hdiv1 : ((a : ℚ) / 1000) / 3600 = (a : ℚ) / ((3600000 : ℕ) : ℚ) := by
    push_cast
    rw [div_div]
    norm_num
  have hhours : pyTrunc (((a : ℚ) / 1000) / 3600) = ((a / 3600000 : ℕ) : ℤ) := by
    rw [pyTrunc_nonneg (by positivity), hdiv1, floor_nat_div a 3600000 (by norm_num)]
  -- first remainder: seconds %= 3600
  have hs1 : pyMod ((a : ℚ) / 1000) 3600 = ((a % 3600000 : ℕ) : ℚ) / 1000 := by
    have h := pyMod_ms a 3600 (by norm_num)
    norm_num at h ⊢
    try exact h
  -- minutes
  have hdiv2 : (((a % 3600000 : ℕ) : ℚ) / 1000) / 60 =
      ((a % 3600000 : ℕ) : ℚ) / ((60000 : ℕ) : ℚ) := by
    push_cast
    rw [div_div]
    norm_num
  have hminutes : pyTrunc ((((a % 3600000 : ℕ) : ℚ) / 1000) / 60) =
      ((a / 60000 % 60 : ℕ) : ℤ) := by
    rw [pyTrunc_nonneg (by positivity), hdiv2, floor_nat_div _ 60000 (by norm_num)]
    congr 1
    exact_mod_cast congrArg (Nat.cast (R := ℤ))
      (by rw [show (3600000 : ℕ) = 60000 * 60 from by norm_num,
        Nat.mod_mul_right_div_self])
  -- second remainder: seconds %= 60
  have hs2 : pyMod (((a % 3600000 : ℕ) : ℚ) / 1000) 60 = ((a % 60000 : ℕ) : ℚ) / 1000 := by
    have h := pyMod_ms (a % 3600000) 60 (by norm_num)
    have h2 : a % 3600000 % 60000 = a % 60000 :=
      Nat.mod_mod_of_dvd a (by norm_num : (60000 : ℕ) ∣ 3600000)
    norm_num [h2] at h ⊢
    try exact h
  -- the fractional-seconds field
  have hfloor2 : ⌊((a % 60000 : ℕ) : ℚ) / 1000⌋ = ((a / 1000 % 60 : ℕ) : ℤ) := by
    have h60 : (1000 : ℚ) = ((1000 : ℕ) : ℚ) := by norm_num
    rw [h60, floor_nat_div _ 1000 (by norm_num)]
    congr 1
    exact_mod_cast congrArg (Nat.cast (R := ℤ))
      (by rw [show (60000 : ℕ) = 1000 * 60 from by norm_num,
        Nat.mod_mul_right_div_self])
  have hmul : ((a % 60000 : ℕ) : ℚ) / 1000 * 1000 = ((a % 60000 : ℕ) : ℚ) := by
    field_simp
  have hms' : ⌊((a % 60000 : ℕ) : ℚ) / 1000 * 1000⌋ -
      1000 * ⌊((a % 60000 : ℕ) : ℚ) / 1000⌋ = ((a % 1000 : ℕ) : ℤ) := by
    rw [hmul, hfloor2, Int.floor_natCast]
    have h1 : a % 60000 % 1000 = a % 1000 :=
      Nat.mod_mod_of_dvd a (by norm_num : (1000 : ℕ) ∣ 60000)
    have h2 : a % 60000 = 1000 * (a % 60000 / 1000) + a % 60000 % 1000 :=
      (Nat.div_add_mod _ 1000).symm
    have h3 : a % 60000 / 1000 = a / 1000 % 60 := by
      rw [show (60000 : ℕ) = 1000 * 60 from by norm_num, Nat.mod_mul_right_div_self]
    push_cast
    omega
  have hfmt : fmt063 (((a % 60000 : ℕ) : ℚ) / 1000) =
      padZeros 2 (natStr (a / 1000 % 60)) ++ "." ++ padZeros 3 (natStr (a % 1000)) := by
    unfold fmt063
    rw [hms', hfloor2, intStr_natCast, intStr_natCast]
    apply padZeros6_split
    · exact natStr_length_le (by norm_num) (by
        have : a / 1000 % 60 < 60 := Nat.mod_lt _ (by norm_num)
        omega)
    · rw [padZeros_length]
      have : (natStr (a % 1000)).data.length ≤ 3 :=
        natStr_length_le (by norm_num) (by
          have : a % 1000 < 1000 := Nat.mod_lt _ (by norm_num)
          omega)
      omega
  -- assemble
  simp only [format_timestamp]
  rw [hs1, hs2, hhours, hminutes, hfmt, intStr_natCast, intStr_natCast]
  simp only [Bool.true_or, if_true, eq_self_iff_true]
  rw [pyReplace_dot]
  apply String.ext
  show ((natStr (a / 3600000) ++ ":" ++ padZeros 2 (natStr (a / 60000 % 60)) ++ ":" ++
      (padZeros 2 (natStr (a / 1000 % 60)) ++ "." ++
        padZeros 3 (natStr (a % 1000)))).data.map
      (fun x => if x = '.' then ',' else x)) = (srtTimestamp a).data
  simp only [String.data_append, List.map_append]
  rw [dot_map_noop _ (natStr_ne_dot _),
    dot_map_noop _ (padZeros_ne_dot 2 _ (natStr_ne_dot _)),
    dot_map_noop _ (padZeros_ne_dot 2 _ (natStr_ne_dot _)),
    dot_map_noop _ (padZeros_ne_dot 3 _ (natStr_ne_dot _))]
  show _ ++ ((":" : String).data.map _) ++ _ ++ ((":" : String).data.map _) ++
      (_ ++ (("." : String).data.map _) ++ _) = _
  norm_num [srtTimestamp, String.data_append]
  decide

lemma format_srt_eq (segs : List WhisperSegment) (ms : ℚ → ℕ)
    (hms : ∀ s ∈ segs, ((ms s.start : ℚ) / 1000 = s.start) ∧
      ((ms s.stop : ℚ) / 1000 = s.stop)) :
    format_srt segs =
      pyStrip (String.join (segs.enum.map (fun p =>
        natStr (p.1 + 1) ++ "\n" ++
        srtTimestamp (ms p.2.start) ++ " --> " ++ srtTimestamp (ms p.2.stop) ++ "\n" ++
        (match p.2.speaker with
         | some sp => if sp = "" then "" else "[" ++ sp ++ "] "
         | none => "") ++
        pyReplace (pyStrip p.2.text) "-->" "->" ++ "\n\n"))) := by
  unfold format_srt
  apply congrArg pyStrip
  apply congrArg String.join
  apply List.map_congr_left
  intro p hp
  have hmem : p.2 ∈ segs := List.snd_mem_of_mem_enumFrom hp
  obtain ⟨h1, h2⟩ := hms p.2 hmem
  conv_lhs => rw [← h1, ← h2]
  rw [format_timestamp_ms, format_timestamp_ms]

/-- **C8** (amended).  For segments with millisecond-precision times
(`ms` retrieving each time's millisecond count), the SRT formatter emits
for each segment a 1-based sequence number, a timestamp line
`H:MM:SS,mmm --> H:MM:SS,mmm` (comma decimal marker, hours always shown but
not zero-padded, minutes and whole seconds padded to 2 digits, milliseconds
to 3 digits), then the whitespace-stripped segment text with `"-->"`
substrings replaced by `"->"` in one left-to-right pass (which can leave a
`"-->"` in the output when overlapping occurrences collapse), optionally
prefixed with `"[speaker] "`, then a blank-line separator, the whole output
finally stripped of surrounding whitespace. -/
theorem format_srt_structure (segs : List WhisperSegment) (ms : ℚ → ℕ)
    (hms : ∀ s ∈ segs, ((ms s.start : ℚ) / 1000 = s.start) ∧
      ((ms s.stop : ℚ) / 1000 = s.stop)) :
    format_srt segs =
      pyStrip (String.join (segs.enum.map (fun p =>
        natStr (p.1 + 1) ++ "\n" ++
        srtTimestamp (ms p.2.start) ++ " --> " ++ srtTimestamp (ms p.2.stop) ++ "\n" ++
        (match p.2.speaker with
         | some sp => if sp = "" then "" else "[" ++ sp ++ "] "
         | none => "") ++
        pyReplace (pyStrip p.2.text) "-->" "->" ++ "\n\n"))) :=
  format_srt_eq segs ms hms

/-- Witness for `format_srt_structure`: a two-segment list with a speaker
tag, inner whitespace and an hour-long offset; the rendered output is
checked against the explicit SRT string. -/
theorem format_srt_structure_witness :
    format_srt
      [⟨0, 0, 2, " hello   world ", some "alice"⟩,
       ⟨1, 2, 3661, "done", none⟩] =
      pyStrip (String.join
        (([⟨0, 0, 2, " hello   world ", some "alice"⟩,
           ⟨1, 2, 3661, "done", none⟩] : List WhisperSegment).enum.map (fun p =>
          natStr (p.1 + 1) ++ "\n" ++
          srtTimestamp ((fun q : ℚ => if q = 2 then 2000 else if q = 3661 then 3661000
            else 0) p.2.start) ++ " --> " ++
          srtTimestamp ((fun q : ℚ => if q = 2 then 2000 else if q = 3661 then 3661000
            else 0) p.2.stop) ++ "\n" ++
          (match p.2.speaker with
           | some sp => if sp = "" then "" else "[" ++ sp ++ "] "
           | none => "") ++
          pyReplace (pyStrip p.2.text) "-->" "->" ++ "\n\n"))) ∧
    format_srt
      [⟨0, 0, 2, " hello   world ", some "alice"⟩,
       ⟨1, 2, 3661, "done", none⟩] =
      "1\n0:00:00,000 --> 0:00:02,000\n[alice] hello   world\n\n" ++
        "2\n0:00:02,000 --> 1:01:01,000\ndone" := by
  have happ := format_srt_structure
    [⟨0, 0, 2, " hello   world ", some "alice"⟩, ⟨1, 2, 3661, "done", none⟩]
    (fun q : ℚ => if q = 2 then 2000 else if q = 3661 then 3661000 else 0)
    (by
      intro s hs
      fin_cases hs <;> constructor <;> norm_num)
  refine ⟨happ, ?_⟩
  rw [happ]
  decide

/-- **C8** (counterexample to the claim as stated): the single left-to-right
replacement pass does not guarantee the absence of literal `"-->"` in a text
body.  For the text `"--->"`, the replacement yields `"-->"`, and the SRT
output's text line is exactly `"-->"`.  The timestamp line also shows the
hours field rendered without zero-padding. -/
theorem format_srt_arrow_in_text_body :
    pyReplace (pyStrip "--->") "-->" "->" = "-->" ∧
    format_srt [⟨0, 0, 1, "--->", none⟩] =
      "1\n0:00:00,000 --> 0:00:01,000\n-->" := by
  constructor
  · decide
  · rw [format_srt_eq [⟨0, 0, 1, "--->", none⟩]
      (fun q : ℚ => if q = 1 then 1000 else 0)
      (by
        intro s hs
        fin_cases hs
        constructor <;> norm_num)]
    decide

end Parakeet
